import Mathlib

/-!
Verification of the translation-cli nested-catalog engines.

The JSON catalog trees of the tool are modelled by `JValue`: a leaf text
value or an object given as an ordered entry list `JEntries` (JS objects
keep insertion order; their keys are unique, which is the predicate
`wfTree`). The dotted-path operations `getNestedProperty`,
`setNestedProperty` and `removeNestedProperty` follow
`src/utils/object.js` and `src/commands.js`; since the source runs in
strict mode (ES modules), descending into a leaf while setting raises a
`TypeError`, which the model renders as `Except.error SetErr.typeError`.
-/

namespace TCli

mutual
inductive JValue where
  | str : String → JValue
  | obj : JEntries → JValue

inductive JEntries where
  | nil : JEntries
  | cons : String → JValue → JEntries → JEntries
end

mutual
def decEqJ : (a b : JValue) → Decidable (a = b)
  | .str a, .str b =>
      if h : a = b then .isTrue (by rw [h]) else .isFalse (by simp [h])
  | .str _, .obj _ => .isFalse (by simp)
  | .obj _, .str _ => .isFalse (by simp)
  | .obj a, .obj b =>
      match decEqE a b with
      | .isTrue h => .isTrue (by rw [h])
      | .isFalse h => .isFalse (by simp [h])

def decEqE : (a b : JEntries) → Decidable (a = b)
  | .nil, .nil => .isTrue rfl
  | .nil, .cons _ _ _ => .isFalse (by simp)
  | .cons _ _ _, .nil => .isFalse (by simp)
  | .cons k v r, .cons k' v' r' =>
      if hk : k = k' then
        match decEqJ v v' with
        | .isTrue hv =>
            match decEqE r r' with
            | .isTrue hr => .isTrue (by rw [hk, hv, hr])
            | .isFalse hr => .isFalse (by simp [hr])
        | .isFalse hv => .isFalse (by simp [hv])
      else .isFalse (by simp [hk])
end

instance : DecidableEq JValue := decEqJ
instance : DecidableEq JEntries := decEqE

instance {ε α : Type} [DecidableEq ε] [DecidableEq α] : DecidableEq (Except ε α)
  | .ok a, .ok b =>
      if h : a = b then .isTrue (by rw [h]) else .isFalse (by simp [h])
  | .ok _, .error _ => .isFalse (by simp)
  | .error _, .ok _ => .isFalse (by simp)
  | .error e, .error f =>
      if h : e = f then .isTrue (by rw [h]) else .isFalse (by simp [h])

/-- Entry-list lookup, the model of the JS property read `kvs[k]`
(own data properties only; the prototype chain is outside the model). -/
def alookup : JEntries → String → Option JValue
  | .nil, _ => none
  | .cons k' v' rest, k => if k' = k then some v' else alookup rest k

/-- The model of the JS property write `kvs[k] = v`: an existing key keeps
its position, a new key is appended at the end (JS enumeration order). -/
def setKey : JEntries → String → JValue → JEntries
  | .nil, k, v => .cons k v .nil
  | .cons k' v' rest, k, v =>
      if k' = k then .cons k' v rest else .cons k' v' (setKey rest k v)

/-- The model of JS `delete kvs[k]`. -/
def removeKey : JEntries → String → JEntries
  | .nil, _ => .nil
  | .cons k' v' rest, k =>
      if k' = k then rest else .cons k' v' (removeKey rest k)

def JEntries.isEmpty : JEntries → Bool
  | .nil => true
  | .cons _ _ _ => false

def keysOf : JEntries → List String
  | .nil => []
  | .cons k _ rest => k :: keysOf rest

/-- `path.split('.')` of the source: split on every dot, keeping empty
segments, always returning at least one segment. -/
def splitAux (acc : List Char) : List Char → List String
  | [] => [String.mk acc.reverse]
  | c :: cs =>
      if c = '.' then String.mk acc.reverse :: splitAux [] cs
      else splitAux (c :: acc) cs

def splitPath (path : String) : List String :=
  splitAux [] path.toList

/-- `keys.pop()` of the source: separate the final segment from the
intermediate ones. -/
def initLast : List String → Option (List String × String)
  | [] => none
  | [k] => some ([], k)
  | k :: k' :: rest =>
      match initLast (k' :: rest) with
      | some (i, l) => some (k :: i, l)
      | none => none

/-- One step of `current?.[key]`: a leaf has no own properties, an object
is looked up. -/
def getSeg : JValue → String → Option JValue
  | .str _, _ => none
  | .obj kvs, k => alookup kvs k

/-- The reduce of `getNestedProperty`: descend segment by segment,
propagating `undefined`. -/
def getSegs (v : JValue) (segs : List String) : Option JValue :=
  segs.foldl (fun cur k => cur.bind (fun w => getSeg w k)) (some v)

/-- `getNestedProperty(obj, path)` from src/utils/object.js. -/
def getNestedProperty (obj : JValue) (path : String) : Option JValue :=
  getSegs obj (splitPath path)

inductive SetErr where
  | typeError
deriving DecidableEq

/-- The walk of `setNestedProperty`: create an empty object for an absent
intermediate segment, descend an existing one, and finally assign the
last segment.  Reaching a leaf while any segment is still pending models
the strict-mode `TypeError` the source raises there (`key in current` on
a primitive, or the final assignment on a primitive). -/
def setSegs : JValue → List String → String → JValue → Except SetErr JValue
  | .str _, _, _, _ => .error .typeError
  | .obj kvs, [], last, v => .ok (.obj (setKey kvs last v))
  | .obj kvs, k :: rest, last, v =>
      let child := match alookup kvs k with
        | some c => c
        | none => .obj .nil
      match setSegs child rest last v with
      | .ok child' => .ok (.obj (setKey kvs k child'))
      | .error e => .error e

/-- `setNestedProperty(obj, path, value)` from src/utils/object.js. -/
def setNestedProperty (obj : JValue) (path : String) (value : JValue) :
    Except SetErr JValue :=
  match initLast (splitPath path) with
  | some (inters, last) => setSegs obj inters last value
  | none => .ok obj

/-- The body of `removeNestedProperty` from src/commands.js: descend the
intermediate segments; when the target resolves to an object, delete the
final segment there, and afterwards delete the target from its own parent
when the deletion left the target empty (the cleanup loop of the source checks
exactly this one level).  Everywhere else the tree is returned unchanged. -/
def remWalk : JValue → List String → String → JValue
  | v, [], last =>
      match v with
      | .obj kvs => .obj (removeKey kvs last)
      | .str _ => v
  | v, [k], last =>
      match v with
      | .obj kvs =>
          match alookup kvs k with
          | some (.obj ckvs) =>
              let ckvs' := removeKey ckvs last
              if ckvs'.isEmpty then .obj (removeKey kvs k)
              else .obj (setKey kvs k (.obj ckvs'))
          | some (.str _) => v
          | none => v
      | .str _ => v
  | v, k :: k' :: rest, last =>
      match v with
      | .obj kvs =>
          match alookup kvs k with
          | some child => .obj (setKey kvs k (remWalk child (k' :: rest) last))
          | none => v
      | .str _ => v

/-- `removeNestedProperty(obj, path)` from src/commands.js. -/
def removeNestedProperty (obj : JValue) (path : String) : JValue :=
  match initLast (splitPath path) with
  | some (inters, last) => remWalk obj inters last
  | none => obj

/-- `translationExists(translations, key)` from src/utils/object.js. -/
def translationExists (translations : JValue) (key : String) : Bool :=
  (getNestedProperty translations key).isSome

mutual
/-- `flattenObject` from src/utils/object.js: leaves are emitted under the
accumulated dotted key, objects are descended. -/
def flattenValue : JValue → String → List (String × String)
  | .str s, key => [(key, s)]
  | .obj kvs, key => flattenEntries kvs key

def flattenEntries : JEntries → String → List (String × String)
  | .nil, _ => []
  | .cons k v rest, pre =>
      flattenValue v (if pre = "" then k else pre ++ "." ++ k) ++
        flattenEntries rest pre
end

def flattenObject (v : JValue) : List (String × String) :=
  match v with
  | .obj kvs => flattenEntries kvs ""
  | .str _ => []

/-- `Object.keys(flattenObject(v))`. -/
def flattenKeys (v : JValue) : List String :=
  (flattenObject v).map Prod.fst

/-- Lexicographic code-unit comparison, as used by the default JS
`Array.prototype.sort` on strings. -/
def strLtAux : List Char → List Char → Bool
  | [], [] => false
  | [], _ :: _ => true
  | _ :: _, [] => false
  | a :: as, b :: bs =>
      if a.toNat < b.toNat then true
      else if b.toNat < a.toNat then false
      else strLtAux as bs

def strLt (a b : String) : Bool := strLtAux a.toList b.toList

/-- Insertion into a key-sorted entry list (JS `Object.keys(obj).sort()`
is lexicographic). -/
def insertPair (k : String) (v : JValue) : JEntries → JEntries
  | .nil => .cons k v .nil
  | .cons k' v' rest =>
      if strLt k k' then .cons k v (.cons k' v' rest)
      else .cons k' v' (insertPair k v rest)

def sortPairs : JEntries → JEntries
  | .nil => .nil
  | .cons k v rest => insertPair k v (sortPairs rest)

mutual
/-- `sortObjectRecursively` from src/utils/object.js. -/
def sortObjectRecursively : JValue → JValue
  | .str s => .str s
  | .obj kvs => .obj (sortPairs (sortChildren kvs))

def sortChildren : JEntries → JEntries
  | .nil => .nil
  | .cons k v rest => .cons k (sortObjectRecursively v) (sortChildren rest)
end

def nodupKeys : JEntries → Bool
  | .nil => true
  | .cons k _ rest => !((keysOf rest).contains k) && nodupKeys rest

mutual
/-- Well-formedness of a tree as a JS object: keys at every object level
are pairwise distinct. -/
def wfTree : JValue → Bool
  | .str _ => true
  | .obj kvs => nodupKeys kvs && wfChildren kvs

def wfChildren : JEntries → Bool
  | .nil => true
  | .cons _ v rest => wfTree v && wfChildren rest
end

/-! ### The usage-scan engine (src/usage-scanner.js) -/

/-- JS `\w`: ASCII letters, digits and underscore. -/
def isWordChar (c : Char) : Bool := c.isAlphanum || c = '_'

/-- JS `\s` restricted to the ASCII whitespace characters (space, tab,
line feed, vertical tab, form feed, carriage return); the scanned source
text is assumed not to use the exotic Unicode spaces. -/
def isJsSpace (c : Char) : Bool := c = ' ' || (9 ≤ c.toNat && c.toNat ≤ 13)

/-- One of the three JS quote characters, the class written between
brackets in the source patterns. -/
def isQuoteChar (c : Char) : Bool := c.toNat = 39 || c.toNat = 34 || c.toNat = 96

/-- The common tail of the call patterns following the callee name:
spaces, an opening parenthesis, spaces, an opening quote of any of the
three kinds, a nonempty greedy run of non-quote characters (the capture),
and a closing quote of any kind.  Returns the capture and the remaining
text after the match. -/
def tryCallTail (s : List Char) : Option (List Char × List Char) :=
  match s.dropWhile isJsSpace with
  | c :: s2 =>
      if c = '(' then
        match s2.dropWhile isJsSpace with
        | q :: s4 =>
            if isQuoteChar q then
              match s4.takeWhile (fun d => !isQuoteChar d),
                    s4.dropWhile (fun d => !isQuoteChar d) with
              | cap :: caps, _ :: restAfter => some (cap :: caps, restAfter)
              | _, _ => none
            else none
        | [] => none
      else none
  | [] => none

/-- The template-literal tail: only a backtick opens and closes, and the
capture is a nonempty run of non-backtick characters. -/
def tryTemplateTail (s : List Char) : Option (List Char × List Char) :=
  match s.dropWhile isJsSpace with
  | c :: s2 =>
      if c = '(' then
        match s2.dropWhile isJsSpace with
        | q :: s4 =>
            if q.toNat = 96 then
              match s4.takeWhile (fun d => !(d.toNat = 96)),
                    s4.dropWhile (fun d => !(d.toNat = 96)) with
              | cap :: caps, _ :: restAfter => some (cap :: caps, restAfter)
              | _, _ => none
            else none
        | [] => none
      else none
  | [] => none

/-- Source pattern 1, a match attempt at the current position: a word
boundary, `t`, then the quoted call tail. -/
def tryPat1 (prevWord : Bool) : List Char → Option (List Char × List Char)
  | c :: s1 => if c = 't' && !prevWord then tryCallTail s1 else none
  | [] => none

/-- Source pattern 2: a word boundary, `t`, then the template tail. -/
def tryPat2 (prevWord : Bool) : List Char → Option (List Char × List Char)
  | c :: s1 => if c = 't' && !prevWord then tryTemplateTail s1 else none
  | [] => none

/-- Source pattern 3: `$t` then the quoted call tail (no word boundary in
the source pattern). -/
def tryPat3 (_ : Bool) : List Char → Option (List Char × List Char)
  | a :: b :: s2 =>
      if a.toNat = 36 && b = 't' then tryCallTail s2 else none
  | _ => none

/-- Source pattern 4: `i18n.t` then the quoted call tail. -/
def tryPat4 (_ : Bool) : List Char → Option (List Char × List Char)
  | a :: b :: c :: d :: e :: f :: s2 =>
      if a = 'i' && b = '1' && c = '8' && d = 'n' && e = '.' && f = 't' then
        tryCallTail s2
      else none
  | _ => none

/-- The `exec` loop of the source: repeatedly find the leftmost match
from the current position on, collect its capture, and continue right
after the match.  `prevWord` tracks whether the character before the
current position is a word character (for the `\b` of patterns 1 and 2);
every match ends in a closing quote, which is not a word character.  The
fuel argument is instantiated with the text length; every step consumes
at least one character. -/
def scanPat (tryp : Bool → List Char → Option (List Char × List Char)) :
    Nat → Bool → List Char → List (List Char)
  | 0, _, _ => []
  | _ + 1, _, [] => []
  | fuel + 1, prevWord, c :: cs =>
      match tryp prevWord (c :: cs) with
      | some (cap, rest) => cap :: scanPat tryp fuel false rest
      | none => scanPat tryp fuel (isWordChar c) cs

/-- All captures of the four `TRANSLATION_PATTERNS`, in pattern order,
before the dynamic-key filter and the deduplication. -/
def capturedLiterals (content : String) : List String :=
  let cs := content.toList
  (scanPat tryPat1 cs.length false cs ++ scanPat tryPat2 cs.length false cs ++
      scanPat tryPat3 cs.length false cs ++ scanPat tryPat4 cs.length false cs).map
    (fun l => String.mk l)

def containsSub (sub : List Char) : List Char → Bool
  | [] => sub.isEmpty
  | c :: cs => sub.isPrefixOf (c :: cs) || containsSub sub cs

/-- The dynamic-key test of `extractTranslationKeys`: the literal contains
one of the markers. -/
def hasMarker (k : String) : Bool :=
  containsSub ("$\x7b".toList) k.toList ||
    containsSub ("\x7b\x7b".toList) k.toList ||
    containsSub ("+".toList) k.toList

/-- First-occurrence deduplication, the JS `Set` insertion order. -/
def dedupFO (l : List String) : List String :=
  l.foldl (fun acc k => if acc.contains k then acc else acc ++ [k]) []

/-- `extractTranslationKeys(content)` from src/usage-scanner.js: every
capture of the patterns, dynamic keys skipped, deduplicated. -/
def extractTranslationKeys (content : String) : List String :=
  dedupFO ((capturedLiterals content).filter (fun k => !hasMarker k))

structure ScanResult where
  usedKeys : List String
  unusedKeys : List String
  totalKeys : Nat
  usageRate : Option ℚ

/-- The result computation of `scanUnusedTranslations` from
src/usage-scanner.js, over the source-language tree and the contents of
the files to scan (file enumeration and unreadable files are the
concern of the collaborator; the two early returns of the source leave the
usage rate undefined, modelled as `none`). -/
def scanUnusedTranslations (sourceTranslations : JValue) (files : List String) :
    ScanResult :=
  let allTranslationKeys := flattenKeys sourceTranslations
  if allTranslationKeys.isEmpty then ⟨[], [], 0, none⟩
  else if files.isEmpty then ⟨[], allTranslationKeys, allTranslationKeys.length, none⟩
  else
    let usedKeys := dedupFO (files.flatMap extractTranslationKeys)
    let unusedKeys := allTranslationKeys.filter (fun k => !usedKeys.contains k)
    ⟨usedKeys, unusedKeys, allTranslationKeys.length,
      some ((usedKeys.length : ℚ) / (allTranslationKeys.length : ℚ) * 100)⟩

/-- Modelled from the spec: `usageRate(referenceKeySet, usedKeys)` as the
specification words it, `|usedKeys ∩ referenceKeySet| / |referenceKeySet|
* 100`, to be compared with the rate the code returns. -/
def specUsageRate (referenceKeySet usedKeys : List String) : ℚ :=
  (((dedupFO usedKeys).filter (fun k => referenceKeySet.contains k)).length : ℚ) /
    ((dedupFO referenceKeySet).length : ℚ) * 100

/-- The reference key-path grammar of the spec: `^[A-Za-z0-9._-]+$`,
also the check of `renameTranslationKey` on its new key. -/
def validKeyFormat (s : String) : Bool :=
  !s.toList.isEmpty &&
    s.toList.all (fun c => c.isAlphanum || c = '.' || c = '_' || c = '-')

/-! ### The reconciliation engine (src/verification.js) -/

def insertStr (s : String) : List String → List String
  | [] => [s]
  | t :: rest => if strLt s t then s :: t :: rest else t :: insertStr s rest

def sortStrings : List String → List String
  | [] => []
  | s :: rest => insertStr s (sortStrings rest)

/-- `getAllKeys(config)` from src/verification.js: the union of every
flattened key set of every configured language, sorted.  `catalogs` is the
storage collaborator (`loadTranslations`), already normalising an absent
file to an empty tree. -/
def getAllKeys (langs : List (String × String)) (catalogs : String → JValue) :
    List String :=
  sortStrings (dedupFO (langs.flatMap (fun l => flattenKeys (catalogs l.1))))

/-- `getExtraKeys(langCode, allKeys, config)` from src/verification.js. -/
def getExtraKeys (langCode : String) (allKeys : List String)
    (catalogs : String → JValue) : List String :=
  (flattenKeys (catalogs langCode)).filter (fun k => !allKeys.contains k)

/-! ### The multi-catalog mutation commands (src/commands.js,
src/translation.js) -/

def alookupStr : List (String × String) → String → Option String
  | [], _ => none
  | (k', v') :: rest, k => if k' = k then some v' else alookupStr rest k

inductive RenameErr where
  | invalidFormat
  | keyNotFound
  | targetExists
  | typeError
deriving DecidableEq

/-- The per-language mutation loop of `renameTranslationKey`: where the
old key resolves, set the new key, remove the old one, sort and save;
other languages are skipped.  The result pairs the first error raised
(a strict-mode `TypeError` from `setNestedProperty` aborts the loop)
with the ordered list of performed saves. -/
def renameLoop (oldKey newKey : String) (catalogs : String → JValue) :
    List (String × String) → Option RenameErr × List (String × JValue)
  | [] => (none, [])
  | (code, _) :: rest =>
      let translations := catalogs code
      match getNestedProperty translations oldKey with
      | some oldValue =>
          match setNestedProperty translations newKey oldValue with
          | .ok t1 =>
              let t2 := removeNestedProperty t1 oldKey
              let out := renameLoop oldKey newKey catalogs rest
              (out.1, (code, sortObjectRecursively t2) :: out.2)
          | .error _ => (some .typeError, [])
      | none => renameLoop oldKey newKey catalogs rest

/-- `renameTranslationKey(oldKey, newKey, config, {force})` from
src/commands.js: format check, then the read-only existence scan over
every language, then the mutation loop.  The saves list records every
catalog persisted by the call. -/
def renameTranslationKey (oldKey newKey : String)
    (langs : List (String × String)) (catalogs : String → JValue)
    (force : Bool) : Option RenameErr × List (String × JValue) :=
  if !validKeyFormat newKey then (some .invalidFormat, [])
  else
    let keyExists :=
      langs.any (fun l => (getNestedProperty (catalogs l.1) oldKey).isSome)
    let newKeyExists :=
      langs.any (fun l => (getNestedProperty (catalogs l.1) newKey).isSome)
    if !keyExists then (some .keyNotFound, [])
    else if newKeyExists && !force then (some .targetExists, [])
    else renameLoop oldKey newKey catalogs langs

structure TransConfig where
  languages : List (String × String)
  sourceLanguage : String

/-- The language-code grammar `^[a-z]{2}-[a-z]{2}$` checked by
`addNewLanguage`. -/
def validLangCode (s : String) : Bool :=
  match s.toList with
  | [a, b, c, d, e] => a.isLower && b.isLower && c = '-' && d.isLower && e.isLower
  | _ => false

structure AddLangResult where
  langCode : String
  languageName : String
  keysCount : Nat
  translated : Bool
  error : Option String
deriving DecidableEq

inductive AddLangErr where
  | alreadyExists
  | invalidCode
  | typeError
deriving DecidableEq

/-- The `sourceKeys.forEach(setNestedProperty …)` of `addNewLanguage`. -/
def buildNested (pairs : List (String × String)) : Except SetErr JValue :=
  pairs.foldlM (fun acc p => setNestedProperty acc p.1 (.str p.2)) (JValue.obj .nil)

/-- `addNewLanguage(langCode, languageName, config, {translateFromSource})`
from src/commands.js, with the batch-translation collaborator injected
(`none` models a failed call).  The configuration-file update is outside
the model; the returned tree is the catalog persisted for the new
language. -/
def addNewLanguage (langCode languageName : String) (config : TransConfig)
    (sourceTranslations : JValue) (batch : List String → Option (List String))
    (translateFromSource : Bool) :
    Except AddLangErr (JValue × AddLangResult) :=
  if (alookupStr config.languages langCode).isSome then .error .alreadyExists
  else if !validLangCode langCode then .error .invalidCode
  else
    let flatSource := flattenObject sourceTranslations
    let sourceKeys := flatSource.map Prod.fst
    if sourceKeys.isEmpty then
      .ok (sortObjectRecursively (.obj .nil),
        ⟨langCode, languageName, 0, false, none⟩)
    else if translateFromSource then
      let sourceTexts := sourceKeys.map (fun k => (alookupStr flatSource k).getD "")
      match batch sourceTexts with
      | none =>
          .ok (sortObjectRecursively (.obj .nil),
            ⟨langCode, languageName, 0, false, some "Translation failed"⟩)
      | some translatedTexts =>
          if translatedTexts.length ≠ sourceTexts.length then
            .ok (sortObjectRecursively (.obj .nil),
              ⟨langCode, languageName, 0, false, some "Translation failed"⟩)
          else
            match buildNested (sourceKeys.zip translatedTexts) with
            | .ok newTranslations =>
                .ok (sortObjectRecursively newTranslations,
                  ⟨langCode, languageName, sourceKeys.length, true, none⟩)
            | .error _ => .error .typeError
    else
      .ok (sortObjectRecursively (.obj .nil),
        ⟨langCode, languageName, 0, false, none⟩)

structure AddResult where
  saves : List (String × JValue)
  calls : List String
  aborted : Bool
deriving DecidableEq

/-- The per-language loop of `addTranslation` from src/translation.js.
`translate` is the injected single-text translation collaborator (`none`
models a failed call) and `confirm` the interactive replacement prompt.
The result records the saved catalogs in order, the language codes for
which a translation call was made, and whether a strict-mode `TypeError`
from `setNestedProperty` aborted the loop. -/
def addTranslationLoop (key sourceText : String) (srcLang srcLangName : String)
    (catalogs : String → JValue)
    (translate : String → String → String → Option String)
    (confirm : String → Option JValue → String → Bool)
    (force interactive : Bool) : List (String × String) → AddResult
  | [] => ⟨[], [], false⟩
  | (langCode, languageName) :: rest =>
      let translations := catalogs langCode
      let proceed :=
        if translationExists translations key then
          if force then true
          else if interactive then
            confirm key (getNestedProperty translations key) sourceText
          else false
        else true
      if proceed then
        if langCode = srcLang then
          match setNestedProperty translations key (.str sourceText) with
          | .ok t =>
              let out := addTranslationLoop key sourceText srcLang srcLangName
                catalogs translate confirm force interactive rest
              ⟨(langCode, sortObjectRecursively t) :: out.saves, out.calls,
                out.aborted⟩
          | .error _ => ⟨[], [], true⟩
        else
          match translate sourceText languageName srcLangName with
          | none =>
              let out := addTranslationLoop key sourceText srcLang srcLangName
                catalogs translate confirm force interactive rest
              ⟨out.saves, langCode :: out.calls, out.aborted⟩
          | some translatedText =>
              match setNestedProperty translations key (.str translatedText) with
              | .ok t =>
                  let out := addTranslationLoop key sourceText srcLang srcLangName
                    catalogs translate confirm force interactive rest
                  ⟨(langCode, sortObjectRecursively t) :: out.saves,
                    langCode :: out.calls, out.aborted⟩
              | .error _ => ⟨[], [langCode], true⟩
      else
        addTranslationLoop key sourceText srcLang srcLangName catalogs translate
          confirm force interactive rest

/-- `addTranslation(key, sourceText, config, options)` from
src/translation.js. -/
def addTranslation (key sourceText : String) (config : TransConfig)
    (catalogs : String → JValue)
    (translate : String → String → String → Option String)
    (confirm : String → Option JValue → String → Bool)
    (force interactive : Bool) : AddResult :=
  let srcLangName :=
    (alookupStr config.languages config.sourceLanguage).getD "Portuguese"
  addTranslationLoop key sourceText config.sourceLanguage srcLangName catalogs
    translate confirm force interactive config.languages

/-- The failure condition of `addNewLanguage` on the batch-translation
result: the call failed, or it returned a result set whose size does not
match the input size. -/
def batchFailed (expected : Nat) : Option (List String) → Bool
  | none => true
  | some ts => ts.length != expected

/-! ### Entry-list and path lemmas -/

theorem alookup_setKey_self : (kvs : JEntries) → ∀ k v,
    alookup (setKey kvs k v) k = some v
  | .nil, k, v => by simp [setKey, alookup]
  | .cons k' v' rest, k, v => by
      by_cases h : k' = k <;>
        simp [setKey, alookup, h, alookup_setKey_self rest k v]

theorem setKey_self_of_alookup : (kvs : JEntries) → ∀ k v,
    alookup kvs k = some v → setKey kvs k v = kvs
  | .nil, k, v => by simp [alookup]
  | .cons k' v' rest, k, v => by
      by_cases h : k' = k <;>
        simp_all [setKey, alookup, setKey_self_of_alookup rest k v]

theorem removeKey_of_alookup_none : (kvs : JEntries) → ∀ k,
    alookup kvs k = none → removeKey kvs k = kvs
  | .nil, k => by simp [removeKey]
  | .cons k' v' rest, k => by
      by_cases h : k' = k <;>
        simp_all [removeKey, alookup, removeKey_of_alookup_none rest k]

theorem alookup_none_of_not_mem_keys : (kvs : JEntries) → ∀ k,
    k ∉ keysOf kvs → alookup kvs k = none
  | .nil, k, _ => by simp [alookup]
  | .cons k' v' rest, k, h => by
      have hne : k' ≠ k := fun he => h (by simp [keysOf, he])
      have hrest : k ∉ keysOf rest := fun he => h (by simp [keysOf, he])
      simp [alookup, hne, alookup_none_of_not_mem_keys rest k hrest]

theorem alookup_removeKey_self : (kvs : JEntries) → ∀ k,
    nodupKeys kvs = true → alookup (removeKey kvs k) k = none
  | .nil, k, _ => by simp [removeKey, alookup]
  | .cons k' v' rest, k, h => by
      have h1 : ((keysOf rest).contains k' = false) ∧ nodupKeys rest = true := by
        simpa [nodupKeys, Bool.and_eq_true] using h
      by_cases he : k' = k
      · subst he
        simp only [removeKey, if_pos rfl]
        exact alookup_none_of_not_mem_keys rest k' (by
          intro hm
          have hc : k' ∉ keysOf rest := by simpa using h1.1
          exact hc hm)
      · simp [removeKey, he, alookup, alookup_removeKey_self rest k h1.2]

theorem getSegs_nil (v : JValue) : getSegs v [] = some v := rfl

theorem getSegs_none (ks : List String) :
    List.foldl (fun cur k => cur.bind (fun w => getSeg w k)) none ks = none := by
  induction ks with
  | nil => rfl
  | cons k ks ih => simpa [List.foldl] using ih

theorem getSegs_cons (v : JValue) (k : String) (ks : List String) :
    getSegs v (k :: ks) = (getSeg v k).bind (fun w => getSegs w ks) := by
  show List.foldl _ ((some v).bind (fun w => getSeg w k)) ks = _
  cases h : getSeg v k with
  | none => simp [h, getSegs_none]
  | some w => simp [h, getSegs]

theorem getSegs_append (v : JValue) (xs ys : List String) :
    getSegs v (xs ++ ys) = (getSegs v xs).bind (fun w => getSegs w ys) := by
  induction xs generalizing v with
  | nil => simp [getSegs_nil]
  | cons x xs ih =>
      rw [List.cons_append, getSegs_cons, getSegs_cons]
      cases h : getSeg v x with
      | none => simp [getSegs_none]
      | some w => simp [ih]

theorem initLast_eq_append : (l : List String) → ∀ i last,
    initLast l = some (i, last) → l = i ++ [last]
  | [], _, _ => by simp [initLast]
  | [k], i, last => by
      intro h
      simp [initLast] at h
      simp [h.1, h.2]
  | k :: k' :: rest, i, last => by
      intro h
      simp only [initLast] at h
      cases hrec : initLast (k' :: rest) with
      | none => rw [hrec] at h; exact absurd h (by simp)
      | some p =>
          rw [hrec] at h
          simp only [Option.some_inj, Prod.mk.injEq] at h
          have hrec2 := initLast_eq_append (k' :: rest) p.1 p.2 (by rw [hrec])
          rw [← h.1, ← h.2]
          simpa using hrec2

theorem initLast_isSome : (l : List String) → l ≠ [] → (initLast l).isSome
  | [], h => absurd rfl h
  | [k], _ => by simp [initLast]
  | k :: k' :: rest, _ => by
      have := initLast_isSome (k' :: rest) (by simp)
      simp only [initLast]
      cases h : initLast (k' :: rest) with
      | none => rw [h] at this; simp at this
      | some p => simp

theorem splitAux_ne_nil : (acc : List Char) → (cs : List Char) →
    splitAux acc cs ≠ []
  | _, [] => by simp [splitAux]
  | acc, c :: cs => by
      by_cases h : c = '.' <;> simp [splitAux, h, splitAux_ne_nil _ cs]

theorem splitPath_ne_nil (path : String) : splitPath path ≠ [] :=
  splitAux_ne_nil [] path.toList

theorem alookup_wfChildren : (kvs : JEntries) → ∀ k w,
    wfChildren kvs = true → alookup kvs k = some w → wfTree w = true
  | .nil, k, w => by simp [alookup]
  | .cons k' v' rest, k, w => by
      intro hwf hl
      have h1 : wfTree v' = true ∧ wfChildren rest = true := by
        simpa [wfChildren, Bool.and_eq_true] using hwf
      by_cases he : k' = k
      · simp only [alookup, if_pos he] at hl
        rw [← Option.some_inj.mp hl]; exact h1.1
      · simp only [alookup, if_neg he] at hl
        exact alookup_wfChildren rest k w h1.2 hl

theorem getSeg_wf (v : JValue) (k : String) (w : JValue)
    (hwf : wfTree v = true) (h : getSeg v k = some w) : wfTree w = true := by
  cases v with
  | str s => simp [getSeg] at h
  | obj kvs =>
      have h1 : nodupKeys kvs = true ∧ wfChildren kvs = true := by
        simpa [wfTree, Bool.and_eq_true] using hwf
      exact alookup_wfChildren kvs k w h1.2 (by simpa [getSeg] using h)

theorem getSegs_wf (segs : List String) : ∀ (v w : JValue),
    wfTree v = true → getSegs v segs = some w → wfTree w = true := by
  induction segs with
  | nil => intro v w hwf h; rw [getSegs_nil] at h; rwa [← Option.some_inj.mp h]
  | cons k ks ih =>
      intro v w hwf h
      rw [getSegs_cons] at h
      cases hs : getSeg v k with
      | none => rw [hs] at h; simp at h
      | some u =>
          rw [hs] at h
          exact ih u w (getSeg_wf v k u hwf hs) (by simpa using h)

/-! ### Lemmas about `setSegs` -/

theorem setSegs_ok_get : (inters : List String) → ∀ (T T' : JValue)
    (last : String) (V : JValue), setSegs T inters last V = .ok T' →
    getSegs T' (inters ++ [last]) = some V
  | [], T, T', last, V => by
      intro h
      cases T with
      | str s => simp [setSegs] at h
      | obj kvs =>
          simp only [setSegs, Except.ok.injEq] at h
          rw [← h]
          simp [getSegs_cons, getSeg, alookup_setKey_self, getSegs_nil]
  | k :: rest, T, T', last, V => by
      intro h
      cases T with
      | str s => simp [setSegs] at h
      | obj kvs =>
          simp only [setSegs] at h
          cases hc : setSegs
              (match alookup kvs k with | some c => c | none => .obj .nil)
              rest last V with
          | error e => rw [hc] at h; simp at h
          | ok child' =>
              rw [hc] at h
              simp only [Except.ok.injEq] at h
              rw [← h, List.cons_append, getSegs_cons]
              simp only [getSeg, alookup_setKey_self]
              simpa using setSegs_ok_get rest _ child' last V hc

theorem setSegs_err_on_leaf_pre : (pre : List String) → ∀ (suf : List String)
    (T : JValue) (s last : String) (V : JValue),
    getSegs T pre = some (.str s) → pre ≠ [] →
    setSegs T (pre ++ suf) last V = .error .typeError
  | [], _, _, _, _, _ => by
      intro h hne
      exact absurd rfl hne
  | [k], suf, T, s, last, V => by
      intro h _
      cases T with
      | str t => rw [getSegs_cons] at h; simp [getSeg] at h
      | obj kvs =>
          rw [getSegs_cons] at h
          simp only [getSeg] at h
          cases hl : alookup kvs k with
          | none => rw [hl] at h; simp at h
          | some c =>
              rw [hl] at h
              have hc : c = .str s := by simpa [getSegs_nil] using h
              subst hc
              simp only [List.cons_append, List.nil_append]
              simp [setSegs, hl]
  | k :: k' :: pre', suf, T, s, last, V => by
      intro h _
      cases T with
      | str t => rw [getSegs_cons] at h; simp [getSeg] at h
      | obj kvs =>
          rw [getSegs_cons] at h
          simp only [getSeg] at h
          cases hl : alookup kvs k with
          | none => rw [hl] at h; simp at h
          | some c =>
              rw [hl] at h
              have hrec : getSegs c (k' :: pre') = some (.str s) := by simpa using h
              have herr := setSegs_err_on_leaf_pre (k' :: pre') suf c s last V hrec (by simp)
              rw [List.cons_append] at herr
              simp only [List.cons_append]
              simp [setSegs, hl, herr]

/-! ### Claim C2: setting across an intermediate leaf segment -/

/-- C2, corrected: when some intermediate (non-final) segment of the path
currently resolves to a leaf value, `set` does not overwrite the leaf with
a fresh empty mapping — it raises a strict-mode `TypeError` and performs
no write at all. -/
theorem claim_C2 (T : JValue) (path : String) (V : JValue) (i : Nat) (s : String)
    (hlen : i + 1 < (splitPath path).length)
    (hleaf : getSegs T ((splitPath path).take (i + 1)) = some (.str s)) :
    setNestedProperty T path V = .error .typeError := by
  unfold setNestedProperty
  cases hil : initLast (splitPath path) with
  | none =>
      exact absurd (initLast_isSome _ (splitPath_ne_nil path))
        (by rw [hil]; simp)
  | some p =>
      obtain ⟨inters, last⟩ := p
      have heq : splitPath path = inters ++ [last] := initLast_eq_append _ _ _ hil
      have hlen' : i + 1 ≤ inters.length := by
        have hl : (splitPath path).length = inters.length + 1 := by rw [heq]; simp
        omega
      have htake : (splitPath path).take (i + 1) = inters.take (i + 1) := by
        rw [heq, List.take_append_of_le_length hlen']
      rw [htake] at hleaf
      have hsplit : inters.take (i + 1) ++ inters.drop (i + 1) = inters :=
        List.take_append_drop _ _
      have hne : inters.take (i + 1) ≠ [] := by
        intro hnil
        have h0 : (inters.take (i + 1)).length = 0 := by rw [hnil]; rfl
        rw [List.length_take] at h0
        omega
      have herr : setSegs T inters last V = .error .typeError := by
        rw [← hsplit]
        exact setSegs_err_on_leaf_pre _ _ _ _ _ _ hleaf hne
      simpa using herr

/-- C2, counterexample to the claim as stated: on `{a: "x"}` with path
`a.b`, `set` raises a `TypeError` instead of completing with the leaf
replaced by a fresh mapping holding the new value. -/
theorem claim_C2_counterexample :
    setNestedProperty (JValue.obj (.cons "a" (.str "x") .nil)) "a.b" (.str "v") =
        .error .typeError ∧
    (Except.error SetErr.typeError : Except SetErr JValue) ≠
      .ok (JValue.obj (.cons "a" (.obj (.cons "b" (.str "v") .nil)) .nil)) := by
  constructor
  · decide
  · decide

theorem claim_C2_witness :
    (0 + 1 < (splitPath "a.b").length ∧
      getSegs (JValue.obj (.cons "a" (.str "x") .nil))
        ((splitPath "a.b").take (0 + 1)) = some (.str "x")) ∧
    setNestedProperty (JValue.obj (.cons "a" (.str "x") .nil)) "a.b" (.str "v") =
      .error .typeError :=
  ⟨⟨by decide, by decide⟩,
    claim_C2 (JValue.obj (.cons "a" (.str "x") .nil)) "a.b" (.str "v") 0 "x"
      (by decide) (by decide)⟩

/-! ### Claim C6: get after set -/

/-- C6, corrected: `get(set(T,P,V),P) = V` holds whenever `set` completes
without error; when a proper prefix of `P` holds a leaf, `set` instead
raises a `TypeError` (see C2), so the equation is restricted to the
successful case. -/
theorem claim_C6 (T : JValue) (path : String) (V T' : JValue)
    (h : setNestedProperty T path V = .ok T') :
    getNestedProperty T' path = some V := by
  unfold setNestedProperty at h
  cases hil : initLast (splitPath path) with
  | none =>
      exact absurd (initLast_isSome _ (splitPath_ne_nil path))
        (by rw [hil]; simp)
  | some p =>
      obtain ⟨inters, last⟩ := p
      rw [hil] at h
      have heq := initLast_eq_append _ _ _ hil
      unfold getNestedProperty
      rw [heq]
      exact setSegs_ok_get inters T T' last V h

/-- C6, counterexample to the universal claim as stated: on
`{k: {leaf: "L"}}` with path `k.leaf.deep` (whose proper prefix `k.leaf`
holds a leaf), `set` raises a `TypeError`, so no tree satisfying the
claimed equation exists. -/
theorem claim_C6_counterexample :
    setNestedProperty (JValue.obj (.cons "k" (.obj (.cons "leaf" (.str "L") .nil)) .nil))
        "k.leaf.deep" (.str "v") = .error .typeError ∧
    (setNestedProperty (JValue.obj (.cons "k" (.obj (.cons "leaf" (.str "L") .nil)) .nil))
        "k.leaf.deep" (.str "v")).toOption.isSome = false := by
  constructor
  · decide
  · decide

/-! ### Lemmas about `remWalk` -/

theorem isEmpty_iff_nil (e : JEntries) : e.isEmpty = true ↔ e = .nil := by
  cases e <;> simp [JEntries.isEmpty]

theorem getSegs_singleton (v : JValue) (k : String) :
    getSegs v [k] = getSeg v k := by
  rw [getSegs_cons]
  cases getSeg v k <;> simp [getSegs_nil]

theorem getSegs_concat (v : JValue) (xs : List String) (x : String) :
    getSegs v (xs ++ [x]) = (getSegs v xs).bind (fun w => getSeg w x) := by
  rw [getSegs_append]
  cases getSegs v xs <;> simp [getSegs_singleton]

/-- Where the removal leaves the parent of the removed key: the parent
position afterwards holds the parent minus the key, except that a parent
emptied by the removal (and not the root) is pruned and its position no
longer resolves. -/
theorem remWalk_parent : (inters : List String) → ∀ (T : JValue)
    (pkvs : JEntries) (last : String), wfTree T = true →
    getSegs T inters = some (.obj pkvs) →
    (inters = [] ∧
      getSegs (remWalk T inters last) inters =
        some (.obj (removeKey pkvs last))) ∨
    (inters ≠ [] ∧ removeKey pkvs last = .nil ∧
      getSegs (remWalk T inters last) inters = none) ∨
    (inters ≠ [] ∧ removeKey pkvs last ≠ .nil ∧
      getSegs (remWalk T inters last) inters =
        some (.obj (removeKey pkvs last)))
  | [], T, pkvs, last => by
      intro _ hget
      rw [getSegs_nil] at hget
      have hT : T = .obj pkvs := by simpa using hget
      subst hT
      exact Or.inl ⟨rfl, by simp [remWalk, getSegs_nil]⟩
  | [k], T, pkvs, last => by
      intro hwf hget
      rw [getSegs_singleton] at hget
      cases T with
      | str s => simp [getSeg] at hget
      | obj kvs =>
          simp only [getSeg] at hget
          have hnd : nodupKeys kvs = true := by
            have := hwf
            simp [wfTree, Bool.and_eq_true] at this
            exact this.1
          simp only [remWalk, hget]
          cases hemp : (removeKey pkvs last).isEmpty with
          | true =>
              have hnil : removeKey pkvs last = .nil :=
                (isEmpty_iff_nil _).mp hemp
              refine Or.inr (Or.inl ⟨by simp, hnil, ?_⟩)
              rw [getSegs_singleton]
              simp only [getSeg]
              exact alookup_removeKey_self kvs k hnd
          | false =>
              have hnnil : removeKey pkvs last ≠ .nil := by
                intro hc
                rw [hc] at hemp
                simp [JEntries.isEmpty] at hemp
              refine Or.inr (Or.inr ⟨by simp, hnnil, ?_⟩)
              rw [getSegs_singleton]
              simp [getSeg, alookup_setKey_self]
  | k :: k' :: rest, T, pkvs, last => by
      intro hwf hget
      rw [getSegs_cons] at hget
      cases T with
      | str s => simp [getSeg] at hget
      | obj kvs =>
          simp only [getSeg] at hget
          cases hl : alookup kvs k with
          | none => rw [hl] at hget; simp at hget
          | some child =>
              rw [hl] at hget
              have hget' : getSegs child (k' :: rest) = some (.obj pkvs) := by
                simpa using hget
              have hwfc : wfTree child = true :=
                getSeg_wf (.obj kvs) k child hwf (by simpa [getSeg] using hl)
              have ih := remWalk_parent (k' :: rest) child pkvs last hwfc hget'
              simp only [remWalk, hl]
              rw [getSegs_cons]
              simp only [getSeg, alookup_setKey_self, Option.some_bind]
              rcases ih with ⟨hc, _⟩ | ⟨_, hnil, hseg⟩ | ⟨_, hnnil, hseg⟩
              · exact absurd hc (by simp)
              · exact Or.inr (Or.inl ⟨by simp, hnil, hseg⟩)
              · exact Or.inr (Or.inr ⟨by simp, hnnil, hseg⟩)

/-- When the path does not resolve, the removal is the identity, unless
the intermediate chain resolves to an (already) empty non-root mapping,
which the cleanup prunes. -/
theorem remWalk_noop : (inters : List String) → ∀ (T : JValue) (last : String),
    (getSegs T inters).bind (fun w => getSeg w last) = none →
    getSegs T inters ≠ some (.obj .nil) →
    remWalk T inters last = T
  | [], T, last => by
      intro h1 _
      rw [getSegs_nil] at h1
      cases T with
      | str s => rfl
      | obj kvs =>
          have : alookup kvs last = none := by simpa [getSeg] using h1
          simp [remWalk, removeKey_of_alookup_none kvs last this]
  | [k], T, last => by
      intro h1 h2
      rw [getSegs_singleton] at h1 h2
      cases T with
      | str s => rfl
      | obj kvs =>
          simp only [getSeg] at h1 h2
          cases hl : alookup kvs k with
          | none => simp [remWalk, hl]
          | some child =>
              rw [hl] at h1 h2
              cases child with
              | str s => simp [remWalk, hl]
              | obj ckvs =>
                  have hnone : alookup ckvs last = none := by
                    simpa [getSeg] using h1
                  have hck : removeKey ckvs last = ckvs :=
                    removeKey_of_alookup_none ckvs last hnone
                  simp only [remWalk, hl, hck]
                  cases hemp : ckvs.isEmpty with
                  | true =>
                      exact absurd (by rw [(isEmpty_iff_nil _).mp hemp])
                        h2
                  | false =>
                      simp [setKey_self_of_alookup kvs k (.obj ckvs) hl]
  | k :: k' :: rest, T, last => by
      intro h1 h2
      rw [getSegs_cons] at h1 h2
      cases T with
      | str s => rfl
      | obj kvs =>
          simp only [getSeg] at h1 h2
          cases hl : alookup kvs k with
          | none => simp [remWalk, hl]
          | some child =>
              rw [hl] at h1 h2
              have ih := remWalk_noop (k' :: rest) child last
                (by simpa using h1) (by simpa using h2)
              simp [remWalk, hl, ih, setKey_self_of_alookup kvs k child hl]

/-! ### Claim C3: removal deletes the leaf and prunes the emptied parent -/

/-- C3, corrected: after removing a resolving path, the path no longer
resolves, and the immediate parent of the leaf never remains as an empty
mapping (it is pruned when the removal empties it) — but only that one
level is cleaned; ancestors above the immediate parent emptied by the
pruning are not themselves removed (see the counterexample). -/
theorem claim_C3 (T : JValue) (path : String) (hwf : wfTree T = true)
    (hdef : (getNestedProperty T path).isSome = true) :
    getNestedProperty (removeNestedProperty T path) path = none ∧
    (2 ≤ (splitPath path).length →
      getSegs (removeNestedProperty T path) ((splitPath path).dropLast) ≠
        some (.obj .nil)) := by
  unfold getNestedProperty removeNestedProperty at *
  cases hil : initLast (splitPath path) with
  | none =>
      exact absurd (initLast_isSome _ (splitPath_ne_nil path))
        (by rw [hil]; simp)
  | some p =>
      obtain ⟨inters, last⟩ := p
      dsimp only
      have heq : splitPath path = inters ++ [last] := initLast_eq_append _ _ _ hil
      rw [heq, getSegs_concat] at hdef
      cases hpar : getSegs T inters with
      | none => rw [hpar] at hdef; simp at hdef
      | some parent =>
          rw [hpar] at hdef
          cases parent with
          | str s => simp [getSeg] at hdef
          | obj pkvs =>
              have hndp : nodupKeys pkvs = true := by
                have hw := getSegs_wf inters T (.obj pkvs) hwf hpar
                simp [wfTree, Bool.and_eq_true] at hw
                exact hw.1
              have hrw := remWalk_parent inters T pkvs last hwf hpar
              have hdrop : (splitPath path).dropLast = inters := by
                rw [heq]; simp
              constructor
              · rw [heq, getSegs_concat]
                rcases hrw with ⟨_, hseg⟩ | ⟨_, _, hseg⟩ | ⟨_, _, hseg⟩
                · rw [hseg]
                  simp [getSeg, alookup_removeKey_self _ _ hndp]
                · rw [hseg]; rfl
                · rw [hseg]
                  simp [getSeg, alookup_removeKey_self _ _ hndp]
              · intro hlen
                rw [hdrop]
                have hine : inters ≠ [] := by
                  intro hc
                  rw [heq, hc] at hlen
                  simp at hlen
                rcases hrw with ⟨hc, _⟩ | ⟨_, _, hseg⟩ | ⟨_, hnnil, hseg⟩
                · exact absurd hc hine
                · rw [hseg]; simp
                · rw [hseg]
                  intro hc
                  exact hnnil (by simpa using hc)

/-- C3, counterexample to the claim as stated: removing `a.b.c` from
`{a: {b: {c: "x"}}}` leaves `{a: {}}` — the ancestor `a` has become an
empty mapping with no sibling keys, yet it is not deleted; only the
immediate parent `a.b` was pruned. -/
theorem claim_C3_counterexample :
    removeNestedProperty
        (JValue.obj (.cons "a"
          (.obj (.cons "b" (.obj (.cons "c" (.str "x") .nil)) .nil)) .nil))
        "a.b.c" =
      JValue.obj (.cons "a" (.obj .nil) .nil) ∧
    getNestedProperty (JValue.obj (.cons "a" (.obj .nil) .nil)) "a" =
      some (.obj .nil) := by
  constructor
  · decide
  · decide

theorem claim_C3_witness :
    (wfTree (JValue.obj (.cons "a" (.obj (.cons "b" (.str "x") .nil)) .nil)) = true ∧
      (getNestedProperty
        (JValue.obj (.cons "a" (.obj (.cons "b" (.str "x") .nil)) .nil))
        "a.b").isSome = true) ∧
    (getNestedProperty
        (removeNestedProperty
          (JValue.obj (.cons "a" (.obj (.cons "b" (.str "x") .nil)) .nil)) "a.b")
        "a.b" = none ∧
      (2 ≤ (splitPath "a.b").length →
        getSegs
            (removeNestedProperty
              (JValue.obj (.cons "a" (.obj (.cons "b" (.str "x") .nil)) .nil))
              "a.b")
            ((splitPath "a.b").dropLast) ≠
          some (.obj .nil))) :=
  ⟨⟨by decide, by decide⟩,
    claim_C3 (JValue.obj (.cons "a" (.obj (.cons "b" (.str "x") .nil)) .nil))
      "a.b" (by decide) (by decide)⟩

/-! ### Claim C10: removal of a non-resolving path -/

/-- C10, corrected: the low-level remove never throws (it is a total
function of the model), and on a path that does not resolve it returns
the tree unchanged — unless the intermediate chain of the path resolves to an
(already) empty mapping, in which case the cleanup still prunes that
empty parent (see the counterexample). -/
theorem claim_C10 (T : JValue) (path : String)
    (hnone : getNestedProperty T path = none)
    (hparent : getSegs T ((splitPath path).dropLast) ≠ some (.obj .nil)) :
    removeNestedProperty T path = T := by
  unfold getNestedProperty at hnone
  unfold removeNestedProperty
  cases hil : initLast (splitPath path) with
  | none => rfl
  | some p =>
      obtain ⟨inters, last⟩ := p
      have heq : splitPath path = inters ++ [last] := initLast_eq_append _ _ _ hil
      rw [heq, getSegs_concat] at hnone
      have hdrop : (splitPath path).dropLast = inters := by
        rw [heq]; simp
      rw [hdrop] at hparent
      exact remWalk_noop inters T last hnone hparent

/-- C10, counterexample to the claim as stated: on `{a: {}}` the path
`a.b` does not resolve, yet remove prunes the empty parent `a` and
returns `{}`, a changed tree. -/
theorem claim_C10_counterexample :
    getNestedProperty (JValue.obj (.cons "a" (.obj .nil) .nil)) "a.b" = none ∧
    removeNestedProperty (JValue.obj (.cons "a" (.obj .nil) .nil)) "a.b" =
      JValue.obj .nil ∧
    JValue.obj .nil ≠ JValue.obj (.cons "a" (.obj .nil) .nil) := by
  refine ⟨by decide, by decide, by decide⟩

theorem claim_C10_witness :
    (getNestedProperty
        (JValue.obj (.cons "a" (.obj (.cons "b" (.str "x") .nil)) .nil)) "a.c" =
      none ∧
      getSegs (JValue.obj (.cons "a" (.obj (.cons "b" (.str "x") .nil)) .nil))
          ((splitPath "a.c").dropLast) ≠
        some (.obj .nil)) ∧
    removeNestedProperty
        (JValue.obj (.cons "a" (.obj (.cons "b" (.str "x") .nil)) .nil)) "a.c" =
      JValue.obj (.cons "a" (.obj (.cons "b" (.str "x") .nil)) .nil) :=
  ⟨⟨by decide, by decide⟩,
    claim_C10 (JValue.obj (.cons "a" (.obj (.cons "b" (.str "x") .nil)) .nil))
      "a.c" (by decide) (by decide)⟩

theorem claim_C6_witness :
    setNestedProperty (JValue.obj .nil) "a.b" (.str "v") =
      .ok (JValue.obj (.cons "a" (.obj (.cons "b" (.str "v") .nil)) .nil)) ∧
    getNestedProperty (JValue.obj (.cons "a" (.obj (.cons "b" (.str "v") .nil)) .nil))
      "a.b" = some (.str "v") :=
  ⟨by decide,
    claim_C6 (JValue.obj .nil) "a.b" (.str "v")
      (JValue.obj (.cons "a" (.obj (.cons "b" (.str "v") .nil)) .nil)) (by decide)⟩

/-! ### Membership lemmas for deduplication and sorting -/

theorem mem_dedup_foldl (l : List String) : ∀ (acc : List String) (a : String),
    (a ∈ l.foldl (fun acc k => if acc.contains k then acc else acc ++ [k]) acc) ↔
      a ∈ acc ∨ a ∈ l := by
  induction l with
  | nil => intro acc a; simp
  | cons k l ih =>
      intro acc a
      by_cases h : acc.contains k = true
      · have hk : k ∈ acc := by simpa using h
        have hstep : (if acc.contains k = true then acc else acc ++ [k]) = acc :=
          if_pos h
        simp only [List.foldl_cons, hstep]
        rw [ih]
        constructor
        · rintro (ha | ha)
          · exact Or.inl ha
          · exact Or.inr (List.mem_cons_of_mem _ ha)
        · rintro (ha | ha)
          · exact Or.inl ha
          · rcases List.mem_cons.mp ha with he | ha
            · exact Or.inl (he ▸ hk)
            · exact Or.inr ha
      · have hstep :
            (if acc.contains k = true then acc else acc ++ [k]) = acc ++ [k] :=
          if_neg h
        simp only [List.foldl_cons, hstep]
        rw [ih]
        simp only [List.mem_append, List.mem_singleton, List.mem_cons]
        tauto

theorem mem_dedupFO (l : List String) (a : String) : a ∈ dedupFO l ↔ a ∈ l := by
  unfold dedupFO
  rw [mem_dedup_foldl]
  simp

theorem mem_insertStr (s a : String) : (l : List String) →
    (a ∈ insertStr s l ↔ a = s ∨ a ∈ l)
  | [] => by simp [insertStr]
  | t :: rest => by
      by_cases h : strLt s t = true
      · simp [insertStr, h]
      · simp only [insertStr, if_neg h, List.mem_cons, mem_insertStr s a rest]
        tauto

theorem mem_sortStrings (a : String) : (l : List String) →
    (a ∈ sortStrings l ↔ a ∈ l)
  | [] => by simp [sortStrings]
  | s :: rest => by
      simp [sortStrings, mem_insertStr, mem_sortStrings a rest]

/-! ### Claim C5: extraKeys relative to the union is always empty -/

/-- C5, confirmed: for every configured language, the extra-keys set
computed against `allKeys` (the union of the flattened key set of every language) is empty, because any key the language holds is a member of the
union by construction. -/
theorem claim_C5 (langs : List (String × String)) (catalogs : String → JValue)
    (code name : String) (hmem : (code, name) ∈ langs) :
    getExtraKeys code (getAllKeys langs catalogs) catalogs = [] := by
  unfold getExtraKeys
  rw [List.filter_eq_nil_iff]
  intro k hk
  have hin : k ∈ getAllKeys langs catalogs := by
    unfold getAllKeys
    rw [mem_sortStrings, mem_dedupFO, List.mem_flatMap]
    exact ⟨(code, name), hmem, hk⟩
  simp [hin]

theorem claim_C5_witness :
    ("en-us", "English") ∈ [("en-us", "English"), ("pt-pt", "Portuguese")] ∧
    getExtraKeys "en-us"
        (getAllKeys [("en-us", "English"), ("pt-pt", "Portuguese")]
          (fun l =>
            if l = "en-us" then
              JValue.obj (.cons "b" (.str "2") (.cons "a" (.str "1") .nil))
            else JValue.obj (.cons "a" (.str "1") .nil)))
        (fun l =>
          if l = "en-us" then
            JValue.obj (.cons "b" (.str "2") (.cons "a" (.str "1") .nil))
          else JValue.obj (.cons "a" (.str "1") .nil)) = [] :=
  ⟨by decide,
    claim_C5 [("en-us", "English"), ("pt-pt", "Portuguese")]
      (fun l =>
        if l = "en-us" then
          JValue.obj (.cons "b" (.str "2") (.cons "a" (.str "1") .nil))
        else JValue.obj (.cons "a" (.str "1") .nil))
      "en-us" "English" (by decide)⟩

/-! ### Claim C4: rename preconditions are checked before any write -/

/-- C4, confirmed: `renameTranslationKey` scans the catalog of every language
read-only before mutating anything; when the old key exists in no
language it fails with the key-not-found error and performs no save, and
when the new key exists in some language and force is not set it fails
with the target-exists error and performs no save. -/
theorem claim_C4 (oldKey newKey : String) (langs : List (String × String))
    (catalogs : String → JValue) (force : Bool)
    (hfmt : validKeyFormat newKey = true) :
    ((langs.any fun l => (getNestedProperty (catalogs l.1) oldKey).isSome) =
        false →
      renameTranslationKey oldKey newKey langs catalogs force =
        (some .keyNotFound, [])) ∧
    ((langs.any fun l => (getNestedProperty (catalogs l.1) oldKey).isSome) =
        true →
      (langs.any fun l => (getNestedProperty (catalogs l.1) newKey).isSome) =
        true →
      force = false →
      renameTranslationKey oldKey newKey langs catalogs force =
        (some .targetExists, [])) := by
  constructor
  · intro hke
    simp [renameTranslationKey, hfmt, hke]
  · intro hke hnk hforce
    subst hforce
    simp [renameTranslationKey, hfmt, hke, hnk]

theorem claim_C4_witness :
    validKeyFormat "b" = true ∧
    ((([("en-us", "English")].any fun l =>
        (getNestedProperty ((fun _ => JValue.obj (.cons "a" (.str "x") .nil)) l.1)
          "zz").isSome) = false →
      renameTranslationKey "zz" "b" [("en-us", "English")]
          (fun _ => JValue.obj (.cons "a" (.str "x") .nil)) false =
        (some .keyNotFound, [])) ∧
    (([("en-us", "English")].any fun l =>
        (getNestedProperty ((fun _ => JValue.obj (.cons "a" (.str "x") .nil)) l.1)
          "zz").isSome) = true →
      (([("en-us", "English")].any fun l =>
        (getNestedProperty ((fun _ => JValue.obj (.cons "a" (.str "x") .nil)) l.1)
          "b").isSome) = true) →
      false = false →
      renameTranslationKey "zz" "b" [("en-us", "English")]
          (fun _ => JValue.obj (.cons "a" (.str "x") .nil)) false =
        (some .targetExists, []))) :=
  ⟨by decide,
    claim_C4 "zz" "b" [("en-us", "English")]
      (fun _ => JValue.obj (.cons "a" (.str "x") .nil)) false (by decide)⟩

/-! ### Claim C9: existing key, not forced, non-interactive: silent skip -/

theorem addLoop_existing_skipped (key sourceText srcLang srcLangName lang : String)
    (catalogs : String → JValue)
    (translate : String → String → String → Option String)
    (confirm : String → Option JValue → String → Bool)
    (hex : translationExists (catalogs lang) key = true) :
    (langsList : List (String × String)) →
    lang ∉ (addTranslationLoop key sourceText srcLang srcLangName catalogs
        translate confirm false false langsList).calls ∧
    lang ∉ ((addTranslationLoop key sourceText srcLang srcLangName catalogs
        translate confirm false false langsList).saves.map Prod.fst)
  | [] => by constructor <;> simp [addTranslationLoop]
  | (c, n) :: rest => by
      have ih := addLoop_existing_skipped key sourceText srcLang srcLangName
        lang catalogs translate confirm hex rest
      by_cases he : translationExists (catalogs c) key = true
      · simpa [addTranslationLoop, he] using ih
      · have hc : c ≠ lang := fun h => he (h ▸ hex)
        have hlc : lang ≠ c := fun h => hc h.symm
        by_cases hsrc : c = srcLang
        · subst hsrc
          cases hset : setNestedProperty (catalogs c) key (.str sourceText) with
          | ok t =>
              simp [addTranslationLoop, he, hset, ih.1, ih.2, hlc]
          | error e =>
              simp [addTranslationLoop, he, hset]
        · cases htr : translate sourceText n srcLangName with
          | none =>
              simp [addTranslationLoop, he, hsrc, htr, ih.1, ih.2, hlc]
          | some tt =>
              cases hset : setNestedProperty (catalogs c) key (.str tt) with
              | ok t =>
                  simp [addTranslationLoop, he, hsrc, htr, hset, ih.1, ih.2, hlc]
              | error e =>
                  simp [addTranslationLoop, he, hsrc, htr, hset, hlc]

/-- C9, confirmed: with `force = false` and `interactive = false`, a
language whose catalog already resolves the key is skipped silently — no
translation call is made for it and no catalog is saved for it, so its
stored catalog is unchanged after the call. -/
theorem claim_C9 (key sourceText : String) (config : TransConfig)
    (catalogs : String → JValue)
    (translate : String → String → String → Option String)
    (confirm : String → Option JValue → String → Bool) (lang : String)
    (hex : translationExists (catalogs lang) key = true) :
    lang ∉ (addTranslation key sourceText config catalogs translate confirm
        false false).calls ∧
    lang ∉ ((addTranslation key sourceText config catalogs translate confirm
        false false).saves.map Prod.fst) := by
  unfold addTranslation
  exact addLoop_existing_skipped key sourceText config.sourceLanguage _ lang
    catalogs translate confirm hex config.languages

theorem claim_C9_witness :
    translationExists
        ((fun _ => JValue.obj (.cons "greet" (.str "hi") .nil)) "pt-pt")
        "greet" = true ∧
    ("pt-pt" ∉ (addTranslation "greet" "hello"
        ⟨[("en-us", "English"), ("pt-pt", "Portuguese")], "en-us"⟩
        (fun _ => JValue.obj (.cons "greet" (.str "hi") .nil))
        (fun _ _ _ => some "ola") (fun _ _ _ => true) false false).calls ∧
      "pt-pt" ∉ ((addTranslation "greet" "hello"
        ⟨[("en-us", "English"), ("pt-pt", "Portuguese")], "en-us"⟩
        (fun _ => JValue.obj (.cons "greet" (.str "hi") .nil))
        (fun _ _ _ => some "ola") (fun _ _ _ => true) false false).saves.map
          Prod.fst)) :=
  ⟨by decide,
    claim_C9 "greet" "hello"
      ⟨[("en-us", "English"), ("pt-pt", "Portuguese")], "en-us"⟩
      (fun _ => JValue.obj (.cons "greet" (.str "hi") .nil))
      (fun _ _ _ => some "ola") (fun _ _ _ => true) "pt-pt" (by decide)⟩

/-! ### Claim C8: failed batch translation still persists an empty catalog -/

/-- C8, confirmed: `addNewLanguage` with `translateFromSource` on a
non-empty source catalog, when the batch call fails or returns a result
of mismatched length, still persists an empty catalog for the new
language and returns `translated = false` together with the error flag. -/
theorem claim_C8 (langCode languageName : String) (config : TransConfig)
    (sourceTranslations : JValue) (batch : List String → Option (List String))
    (hfresh : (alookupStr config.languages langCode).isSome = false)
    (hcode : validLangCode langCode = true)
    (hkeys : ((flattenObject sourceTranslations).map Prod.fst).isEmpty = false)
    (hfail : batchFailed
        (((flattenObject sourceTranslations).map Prod.fst).map
          (fun k => (alookupStr (flattenObject sourceTranslations) k).getD "")).length
        (batch (((flattenObject sourceTranslations).map Prod.fst).map
          (fun k => (alookupStr (flattenObject sourceTranslations) k).getD ""))) =
      true) :
    addNewLanguage langCode languageName config sourceTranslations batch true =
      .ok (JValue.obj .nil,
        ⟨langCode, languageName, 0, false, some "Translation failed"⟩) := by
  have hsort : sortObjectRecursively (.obj .nil) = .obj .nil := rfl
  unfold addNewLanguage
  simp only [hfresh, hcode, hkeys, Bool.not_true, Bool.false_eq_true, if_false,
    Bool.true_eq_false, if_true, hsort]
  cases hb : batch (((flattenObject sourceTranslations).map Prod.fst).map
      (fun k => (alookupStr (flattenObject sourceTranslations) k).getD "")) with
  | none => simp [hsort]
  | some ts =>
      rw [hb] at hfail
      have hne : ts.length ≠ (flattenObject sourceTranslations).length := by
        simpa [batchFailed] using hfail
      simp [hne, hsort]

theorem claim_C8_witness :
    ((alookupStr [("pt-pt", "Portuguese")] "de-de").isSome = false ∧
      validLangCode "de-de" = true ∧
      ((flattenObject (JValue.obj (.cons "a" (.str "Ola") .nil))).map
        Prod.fst).isEmpty = false ∧
      batchFailed
        (((flattenObject (JValue.obj (.cons "a" (.str "Ola") .nil))).map
            Prod.fst).map
          (fun k =>
            (alookupStr (flattenObject (JValue.obj (.cons "a" (.str "Ola") .nil)))
              k).getD "")).length
        ((fun _ => none)
          (((flattenObject (JValue.obj (.cons "a" (.str "Ola") .nil))).map
              Prod.fst).map
            (fun k =>
              (alookupStr
                (flattenObject (JValue.obj (.cons "a" (.str "Ola") .nil)))
                k).getD ""))) = true) ∧
    addNewLanguage "de-de" "German" ⟨[("pt-pt", "Portuguese")], "pt-pt"⟩
        (JValue.obj (.cons "a" (.str "Ola") .nil)) (fun _ => none) true =
      .ok (JValue.obj .nil, ⟨"de-de", "German", 0, false, some "Translation failed"⟩) :=
  ⟨⟨by decide, by decide, by decide, by decide⟩,
    claim_C8 "de-de" "German" ⟨[("pt-pt", "Portuguese")], "pt-pt"⟩
      (JValue.obj (.cons "a" (.str "Ola") .nil)) (fun _ => none)
      (by decide) (by decide) (by decide) (by decide)⟩

/-! ### The scan result fields in the main branch -/

theorem scan_fields (refTree : JValue) (files : List String)
    (hkeys : (flattenKeys refTree).isEmpty = false)
    (hfiles : files.isEmpty = false) :
    (scanUnusedTranslations refTree files).usedKeys =
      dedupFO (files.flatMap extractTranslationKeys) ∧
    (scanUnusedTranslations refTree files).unusedKeys =
      (flattenKeys refTree).filter
        (fun k => !(dedupFO (files.flatMap extractTranslationKeys)).contains k) ∧
    (scanUnusedTranslations refTree files).totalKeys =
      (flattenKeys refTree).length ∧
    (scanUnusedTranslations refTree files).usageRate =
      some (((dedupFO (files.flatMap extractTranslationKeys)).length : ℚ) /
        ((flattenKeys refTree).length : ℚ) * 100) := by
  unfold scanUnusedTranslations
  simp [hkeys, hfiles]

/-! ### Claim C1: the usage rate does not intersect with the reference set -/

/-- C1, corrected: the returned `usageRate` is `|usedKeys| /
|referenceKeySet| * 100` where `usedKeys` is the set of every extracted
key — including phantom keys absent from the reference catalog, which the
code does not intersect away; consequently the rate can exceed 100%. -/
theorem claim_C1 (sourceTranslations : JValue) (files : List String)
    (hkeys : (flattenKeys sourceTranslations).isEmpty = false)
    (hfiles : files.isEmpty = false) :
    (scanUnusedTranslations sourceTranslations files).usageRate =
      some (((scanUnusedTranslations sourceTranslations files).usedKeys.length : ℚ) /
        ((scanUnusedTranslations sourceTranslations files).totalKeys : ℚ) * 100) := by
  obtain ⟨hu, _, ht, hr⟩ := scan_fields sourceTranslations files hkeys hfiles
  rw [hu, ht, hr]

/-- C1, counterexample to the claim as stated: with reference catalog
`{a: "Hello"}` and one scanned file containing `t("a") t("b")`, the code
returns a usage rate of 200 (the phantom key `b` is counted in the
numerator), while the specified `|usedKeys ∩ referenceKeySet| /
|referenceKeySet| * 100` is 100. -/
theorem claim_C1_counterexample :
    (scanUnusedTranslations (JValue.obj (.cons "a" (.str "Hello") .nil))
        ["t(\"a\") t(\"b\")"]).usedKeys = ["a", "b"] ∧
    (scanUnusedTranslations (JValue.obj (.cons "a" (.str "Hello") .nil))
        ["t(\"a\") t(\"b\")"]).usageRate = some 200 ∧
    specUsageRate (flattenKeys (JValue.obj (.cons "a" (.str "Hello") .nil)))
        (scanUnusedTranslations (JValue.obj (.cons "a" (.str "Hello") .nil))
          ["t(\"a\") t(\"b\")"]).usedKeys = 100 ∧
    (200 : ℚ) ≠ 100 := by
  refine ⟨by decide, ?_, ?_, by norm_num⟩
  · obtain ⟨hu, _, ht, hr⟩ := scan_fields
      (JValue.obj (.cons "a" (.str "Hello") .nil)) ["t(\"a\") t(\"b\")"]
      (by decide) (by decide)
    rw [hr]
    have h1 : dedupFO (["t(\"a\") t(\"b\")"].flatMap extractTranslationKeys) =
        ["a", "b"] := by decide
    have h2 : flattenKeys (JValue.obj (.cons "a" (.str "Hello") .nil)) = ["a"] := by
      decide
    rw [h1, h2]
    norm_num
  · have h1 : (scanUnusedTranslations (JValue.obj (.cons "a" (.str "Hello") .nil))
        ["t(\"a\") t(\"b\")"]).usedKeys = ["a", "b"] := by decide
    rw [h1]
    have h2 : dedupFO ["a", "b"] = ["a", "b"] := by decide
    have h3 : (["a", "b"].filter
        (fun k => (flattenKeys (JValue.obj (.cons "a" (.str "Hello") .nil))).contains k)) =
        ["a"] := by decide
    have h4 : dedupFO (flattenKeys (JValue.obj (.cons "a" (.str "Hello") .nil))) =
        ["a"] := by decide
    unfold specUsageRate
    rw [h2, h3, h4]
    norm_num

theorem claim_C1_witness :
    ((flattenKeys (JValue.obj (.cons "a" (.str "Hello") .nil))).isEmpty = false ∧
      (["t(\"a\") t(\"b\")"] : List String).isEmpty = false) ∧
    (scanUnusedTranslations (JValue.obj (.cons "a" (.str "Hello") .nil))
        ["t(\"a\") t(\"b\")"]).usageRate =
      some (((scanUnusedTranslations (JValue.obj (.cons "a" (.str "Hello") .nil))
          ["t(\"a\") t(\"b\")"]).usedKeys.length : ℚ) /
        ((scanUnusedTranslations (JValue.obj (.cons "a" (.str "Hello") .nil))
          ["t(\"a\") t(\"b\")"]).totalKeys : ℚ) * 100) :=
  ⟨⟨by decide, by decide⟩,
    claim_C1 (JValue.obj (.cons "a" (.str "Hello") .nil)) ["t(\"a\") t(\"b\")"]
      (by decide) (by decide)⟩

/-! ### Claim C7: dynamic-marker literals are excluded from the scan -/

theorem mem_extractTranslationKeys (content : String) (k : String) :
    k ∈ extractTranslationKeys content ↔
      k ∈ capturedLiterals content ∧ hasMarker k = false := by
  unfold extractTranslationKeys
  rw [mem_dedupFO, List.mem_filter]
  simp

theorem containsSub_head_mem : (l : List Char) → ∀ (c : Char) (cs : List Char),
    containsSub (c :: cs) l = true → c ∈ l
  | [], c, cs => by simp [containsSub]
  | d :: rest, c, cs => by
      intro h
      simp only [containsSub, Bool.or_eq_true] at h
      rcases h with h | h
      · have hcd : c = d := by
          simp only [List.isPrefixOf, Bool.and_eq_true, beq_iff_eq] at h
          exact h.1
        simp [hcd]
      · exact List.mem_cons_of_mem _ (containsSub_head_mem rest c cs h)

theorem validKey_no_marker (k : String) (h : validKeyFormat k = true) :
    hasMarker k = false := by
  have hall : ∀ c ∈ k.toList,
      (c.isAlphanum || c = '.' || c = '_' || c = '-') = true := by
    have h2 := (by simpa [validKeyFormat, Bool.and_eq_true] using h :
      k.toList.isEmpty = false ∧
        k.toList.all (fun c => c.isAlphanum || c = '.' || c = '_' || c = '-') = true)
    intro c hc
    exact List.all_eq_true.mp h2.2 c hc
  have hone : ∀ (c : Char) (cs : List Char),
      (c.isAlphanum || c = '.' || c = '_' || c = '-') = false →
      containsSub (c :: cs) k.toList = false := by
    intro c cs hc
    cases hinf : containsSub (c :: cs) k.toList with
    | false => rfl
    | true =>
        have := hall c (containsSub_head_mem k.toList c cs hinf)
        rw [this] at hc
        exact absurd hc (by simp)
  have e1 : ("$\x7b" : String).toList = [Char.ofNat 36, Char.ofNat 123] := by decide
  have e2 : ("\x7b\x7b" : String).toList = [Char.ofNat 123, Char.ofNat 123] := by
    decide
  have e3 : ("+" : String).toList = [Char.ofNat 43] := by decide
  unfold hasMarker
  rw [e1, e2, e3]
  rw [hone (Char.ofNat 36) [Char.ofNat 123] (by decide),
    hone (Char.ofNat 123) [Char.ofNat 123] (by decide),
    hone (Char.ofNat 43) [] (by decide)]
  rfl

/-- C7, confirmed: a captured literal containing one of the markers `${`,
`{{`, `+` ends up in neither `usedKeys` nor `unusedKeys` of the scan
result (reference keys obey the key grammar, which excludes the marker
characters), while every other captured literal is added, deduplicated,
to `usedKeys`. -/
theorem claim_C7 (refTree : JValue) (text : String) (k : String)
    (hkeys : (flattenKeys refTree).isEmpty = false)
    (hgram : (flattenKeys refTree).all validKeyFormat = true)
    (hcap : k ∈ capturedLiterals text) :
    (hasMarker k = true →
      k ∉ (scanUnusedTranslations refTree [text]).usedKeys ∧
      k ∉ (scanUnusedTranslations refTree [text]).unusedKeys) ∧
    (hasMarker k = false →
      k ∈ (scanUnusedTranslations refTree [text]).usedKeys) := by
  obtain ⟨hu, hun, _, _⟩ := scan_fields refTree [text] hkeys rfl
  have hflat : ([text].flatMap extractTranslationKeys) =
      extractTranslationKeys text := by simp
  constructor
  · intro hm
    constructor
    · rw [hu, hflat, mem_dedupFO, mem_extractTranslationKeys]
      rintro ⟨_, hfalse⟩
      rw [hm] at hfalse
      exact absurd hfalse (by simp)
    · rw [hun]
      intro hk
      have hkref := (List.mem_filter.mp hk).1
      have hvalid : validKeyFormat k = true :=
        List.all_eq_true.mp hgram k hkref
      have := validKey_no_marker k hvalid
      rw [hm] at this
      exact absurd this (by simp)
  · intro hm
    rw [hu, hflat, mem_dedupFO, mem_extractTranslationKeys]
    exact ⟨hcap, hm⟩

theorem claim_C7_witness :
    ((flattenKeys (JValue.obj (.cons "button"
        (.obj (.cons "save" (.str "Save")
          (.cons "cancel" (.str "Cancel")
            (.cons "submit" (.str "Submit") .nil)))) .nil))).isEmpty = false ∧
      (flattenKeys (JValue.obj (.cons "button"
        (.obj (.cons "save" (.str "Save")
          (.cons "cancel" (.str "Cancel")
            (.cons "submit" (.str "Submit") .nil)))) .nil))).all validKeyFormat =
        true ∧
      "dynamic.$\x7bx\x7d.key" ∈ capturedLiterals
        "t(\"button.save\") t(`button.cancel`) t(`dynamic.$\x7bx\x7d.key`)") ∧
    ((hasMarker "dynamic.$\x7bx\x7d.key" = true →
      "dynamic.$\x7bx\x7d.key" ∉ (scanUnusedTranslations
        (JValue.obj (.cons "button"
          (.obj (.cons "save" (.str "Save")
            (.cons "cancel" (.str "Cancel")
              (.cons "submit" (.str "Submit") .nil)))) .nil))
        ["t(\"button.save\") t(`button.cancel`) t(`dynamic.$\x7bx\x7d.key`)"]).usedKeys ∧
      "dynamic.$\x7bx\x7d.key" ∉ (scanUnusedTranslations
        (JValue.obj (.cons "button"
          (.obj (.cons "save" (.str "Save")
            (.cons "cancel" (.str "Cancel")
              (.cons "submit" (.str "Submit") .nil)))) .nil))
        ["t(\"button.save\") t(`button.cancel`) t(`dynamic.$\x7bx\x7d.key`)"]).unusedKeys) ∧
    (hasMarker "dynamic.$\x7bx\x7d.key" = false →
      "dynamic.$\x7bx\x7d.key" ∈ (scanUnusedTranslations
        (JValue.obj (.cons "button"
          (.obj (.cons "save" (.str "Save")
            (.cons "cancel" (.str "Cancel")
              (.cons "submit" (.str "Submit") .nil)))) .nil))
        ["t(\"button.save\") t(`button.cancel`) t(`dynamic.$\x7bx\x7d.key`)"]).usedKeys)) :=
  ⟨⟨by decide, by decide, by decide⟩,
    claim_C7
      (JValue.obj (.cons "button"
        (.obj (.cons "save" (.str "Save")
          (.cons "cancel" (.str "Cancel")
            (.cons "submit" (.str "Submit") .nil)))) .nil))
      "t(\"button.save\") t(`button.cancel`) t(`dynamic.$\x7bx\x7d.key`)"
      "dynamic.$\x7bx\x7d.key" (by decide) (by decide) (by decide)⟩

end TCli
